import Mathlib

/-!
# Verification of the TSMServerShell-Node routing core

Shallow embedding of the TypeScript source (`src/index.ts`) and its compiled
build (`dist/index.js`): route registry with conflict detection, the
per-request dispatcher, the static/dynamic asset projectors and the MIME
resolver.  JavaScript / Node builtins used by the source (`String.prototype.split`,
`Array.prototype.join`, `String.prototype.replaceAll`, `node:path.join`,
`node:fs`) are external to the repository and are modelled explicitly below.
-/

/-! ## Models of the external JavaScript / Node builtins -/

/-- Model of the JavaScript builtin `s.split(c)` for a single-character
separator: split the character list of `s` on `c`. -/
def jsSplit (s : String) (c : Char) : List String :=
  (s.data.splitOn c).map String.mk

/-- Model of the JavaScript builtin `parts.join(c)` for a single-character
separator. -/
def jsJoin (parts : List String) (c : Char) : String :=
  ⟨List.intercalate [c] (parts.map String.data)⟩

/-- Model of the JavaScript builtin `s.replaceAll(old, new)` where both
arguments are single characters. -/
def jsReplaceAllChar (s : String) (o n : Char) : String :=
  ⟨s.data.map fun c => if c = o then n else c⟩

/-- Model of `node:path.join(p, "..")` on a POSIX path: drop the last
`/`-separated component. -/
def nodeParentPath (p : String) : String :=
  ⟨List.intercalate ['/'] ((p.data.splitOn '/').dropLast)⟩

/-- Model of the external `node:path.join(a, b)` as used by the source: `b`
is either a directory entry name (append it behind a separator) or the
literal `".."` (drop the last component of `a`). -/
def nodePathJoin (a b : String) : String :=
  if b = ".." then nodeParentPath a else ⟨a.data ++ '/' :: b.data⟩

/-! ## Core data model (from `src/index.ts` / `dist/index.js`) -/

/-- `RouteAlreadyBoundError` from the source, carrying the offending route
path. -/
structure RouteAlreadyBoundError where
  route : String
deriving DecidableEq

/-- The error's `message`, as built by the source's constructor. -/
def RouteAlreadyBoundError.message (e : RouteAlreadyBoundError) : String :=
  "Route \"" ++ e.route ++ "\" is already bound."

/-- `Route`: a path, a method string and a callback.  Callbacks are opaque to
the routing core, so they are a type parameter. -/
structure Route (α : Type) where
  path : String
  method : String
  callback : α
deriving DecidableEq

/-- `Route.equals` from the source. -/
def Route.equals (r : Route α) (path method : String) : Bool :=
  if r.path == path && r.method == method then true else false

/-- `ServerShell`: the route table and the single middleware slot.  The
middleware function is opaque, hence a type parameter. -/
structure ServerShell (α μ : Type) where
  routes : List (Route α)
  middleware : μ
deriving DecidableEq

/-- A fresh shell: `routes = []`, middleware slot holding the initial
(no-op) function `m₀`. -/
def ServerShell.new (m₀ : μ) : ServerShell α μ :=
  ⟨[], m₀⟩

/-- `ServerShell.get` from the source: scan the table, throw
`RouteAlreadyBoundError` on a conflicting binding, otherwise push
`(path, "GET")`.  Throwing is modelled by `Except`; since the scan mutates
nothing, the failing call leaves the table exactly as it was. -/
def ServerShell.get (sh : ServerShell α μ) (path : String) (listener : α) :
    Except RouteAlreadyBoundError (ServerShell α μ) :=
  if sh.routes.any fun route =>
      route.path == path && (route.method == "GET" || route.method == "ANY") then
    .error ⟨path⟩
  else
    .ok { sh with routes := sh.routes ++ [⟨path, "GET", listener⟩] }

/-- `ServerShell.post` from the source. -/
def ServerShell.post (sh : ServerShell α μ) (path : String) (listener : α) :
    Except RouteAlreadyBoundError (ServerShell α μ) :=
  if sh.routes.any fun route =>
      route.path == path && (route.method == "POST" || route.method == "ANY") then
    .error ⟨path⟩
  else
    .ok { sh with routes := sh.routes ++ [⟨path, "POST", listener⟩] }

/-- `ServerShell.options` from `dist/index.js`. -/
def ServerShell.options (sh : ServerShell α μ) (path : String) (listener : α) :
    Except RouteAlreadyBoundError (ServerShell α μ) :=
  if sh.routes.any fun route =>
      route.path == path && (route.method == "OPTIONS" || route.method == "ANY") then
    .error ⟨path⟩
  else
    .ok { sh with routes := sh.routes ++ [⟨path, "OPTIONS", listener⟩] }

/-- `ServerShell.put` from the source. -/
def ServerShell.put (sh : ServerShell α μ) (path : String) (listener : α) :
    Except RouteAlreadyBoundError (ServerShell α μ) :=
  if sh.routes.any fun route =>
      route.path == path && (route.method == "PUT" || route.method == "ANY") then
    .error ⟨path⟩
  else
    .ok { sh with routes := sh.routes ++ [⟨path, "PUT", listener⟩] }

/-- `ServerShell.delete` from the source. -/
def ServerShell.delete (sh : ServerShell α μ) (path : String) (listener : α) :
    Except RouteAlreadyBoundError (ServerShell α μ) :=
  if sh.routes.any fun route =>
      route.path == path && (route.method == "DELETE" || route.method == "ANY") then
    .error ⟨path⟩
  else
    .ok { sh with routes := sh.routes ++ [⟨path, "DELETE", listener⟩] }

/-- `ServerShell.any` from the source: conflicts with every existing binding
at the same path. -/
def ServerShell.any (sh : ServerShell α μ) (path : String) (listener : α) :
    Except RouteAlreadyBoundError (ServerShell α μ) :=
  if sh.routes.any fun route => route.path == path then
    .error ⟨path⟩
  else
    .ok { sh with routes := sh.routes ++ [⟨path, "ANY", listener⟩] }

/-- `ServerShell.use` from the source: overwrite the middleware slot. -/
def ServerShell.use (sh : ServerShell α μ) (m : μ) : ServerShell α μ :=
  { sh with middleware := m }

/-! ## The dispatcher (the `createServer` callback inside `listen`) -/

/-- Observable actions of one dispatch, in order: the middleware invocation,
each invoked route callback, and the dispatcher's own response writes. -/
inductive Event (α μ : Type) where
  | middlewareCall (m : μ)
  | handlerCall (h : α)
  | writeHead (status : Nat) (headers : List (String × String))
  | endBody (body : String)
deriving DecidableEq

/-- The `for(const route of this.routes)` loop of the dispatcher: returns the
callbacks invoked (in table order) and the final value of `found`. -/
def routeScan : List (Route α) → String → String → List α × Bool
  | [], _, _ => ([], false)
  | route :: rest, url, method =>
    let (calls, found) := routeScan rest url method
    if route.equals url method then
      (route.callback :: calls, true)
    else if route.path == url && route.method == "ANY" then
      (route.callback :: calls, true)
    else
      (calls, found)

/-- One request through the dispatcher: middleware first, then the route
scan, then the 404 fallback when nothing was found. -/
def handleRequest (sh : ServerShell α μ) (url method : String) :
    List (Event α μ) :=
  let scan := routeScan sh.routes url method
  Event.middlewareCall sh.middleware ::
    (scan.1.map Event.handlerCall ++
      if scan.2 then []
      else [Event.writeHead 404 [("Content-Type", "text/html")],
            Event.endBody ("Cannot get " ++ url)])

/-- The callbacks a dispatch trace invoked. -/
def handlerCalls (evs : List (Event α μ)) : List α :=
  evs.filterMap fun e =>
    match e with
    | .handlerCall h => some h
    | _ => none

/-! ## Filesystem model (external `node:fs`)

A directory listing is an ordered sequence of entries, each a regular file
(with the content `readFileSync` would return, UTF-8 decoded) or a
subdirectory with its own listing.  `FsTree` is one listing, in `readdirSync`
order. -/

inductive FsTree where
  | nil : FsTree
  | file (name content : String) (rest : FsTree) : FsTree
  | dir (name : String) (children : FsTree) (rest : FsTree) : FsTree
deriving DecidableEq

/-- All `(name, content)` pairs of regular files anywhere in a listing. -/
def FsTree.filesOf : FsTree → List (String × String)
  | .nil => []
  | .file n c rest => (n, c) :: rest.filesOf
  | .dir _ ch rest => ch.filesOf ++ rest.filesOf

/-! ## Asset handlers

The three handler closures the projections register, plus opaque
application-provided callbacks.  `eagerTS` is the handler of `useStatic` in
the TypeScript source (`src/index.ts`, no `Content-Length`), `eagerDist` the
one of `useStatic` in `dist/index.js`, `lazyDist` the one of `useDynamic` in
`dist/index.js` (it stores the disk path and re-reads per request). -/

inductive Handler (β : Type) where
  | app (f : β)
  | eagerTS (contents extension : String)
  | eagerDist (contents extension : String)
  | lazyDist (pathnameDir extension : String)
deriving DecidableEq

/-! ## The MIME resolver (`MIMEFromExt`) -/

/-- The `console.log` line of `MIMEFromExt`'s default branch. -/
def unknownExtMessage (extension : String) : String :=
  "Encountered unknown extension while generating static routes: ." ++
    extension ++
    " - If you want this fixed as quickly as possible, open an issue at https://github.com/SaphirDeFeu/TSMServerShell-Node/issues"

/-- `MIMEFromExt` from the source: the switch over the extension.  The second
component collects the diagnostics printed with `console.log`. -/
def MIMEFromExt (extension : String) : String × List String :=
  match extension with
  | "html" | "htm" => ("text/html", [])
  | "css" => ("text/css", [])
  | "js" | "mjs" => ("text/javascript", [])
  | "txt" => ("text/plain", [])
  | "svg" => ("image/svg+xml", [])
  | "apng" => ("image/apng", [])
  | "png" => ("image/png", [])
  | "gif" => ("image/gif", [])
  | "jpg" | "jpeg" => ("image/jpeg", [])
  | "ico" => ("image/vnd.microsoft.icon", [])
  | "mp4" => ("video/mp4", [])
  | "mpeg" => ("video/mpeg", [])
  | "ogv" => ("video/ogg", [])
  | "mp3" => ("audio/mpeg", [])
  | "oga" => ("audio/ogg", [])
  | "json" => ("application/json", [])
  | "xml" => ("application/xml", [])
  | "zip" => ("application/zip", [])
  | "7z" => ("application/x-7z-compressed", [])
  | "rar" => ("application/vnd.rar", [])
  | "tar" => ("application/x-tar", [])
  | "gz" => ("application/gzip", [])
  | "php" => ("application/x-httpd-php", [])
  | "pdf" => ("application/pdf", [])
  | "sh" => ("application/x-sh", [])
  | "otf" => ("font/otf", [])
  | "ttf" => ("font/ttf", [])
  | _ => ("text/plain", [unknownExtMessage extension])

/-- The extension/MIME pairs listed by the switch, in source order. -/
def mimeTable : List (String × String) :=
  [("html", "text/html"), ("htm", "text/html"), ("css", "text/css"),
   ("js", "text/javascript"), ("mjs", "text/javascript"), ("txt", "text/plain"),
   ("svg", "image/svg+xml"), ("apng", "image/apng"), ("png", "image/png"),
   ("gif", "image/gif"), ("jpg", "image/jpeg"), ("jpeg", "image/jpeg"),
   ("ico", "image/vnd.microsoft.icon"), ("mp4", "video/mp4"),
   ("mpeg", "video/mpeg"), ("ogv", "video/ogg"), ("mp3", "audio/mpeg"),
   ("oga", "audio/ogg"), ("json", "application/json"), ("xml", "application/xml"),
   ("zip", "application/zip"), ("7z", "application/x-7z-compressed"),
   ("rar", "application/vnd.rar"), ("tar", "application/x-tar"),
   ("gz", "application/gzip"), ("php", "application/x-httpd-php"),
   ("pdf", "application/pdf"), ("sh", "application/x-sh"),
   ("otf", "font/otf"), ("ttf", "font/ttf")]

/-! ## Running an asset handler -/

/-- A written HTTP response: `writeHead(status, headers)` then `end(body)`. -/
structure HttpResponse where
  status : Nat
  headers : List (String × String)
  body : String
deriving DecidableEq

/-- What each asset-projection handler writes for one request.  `disk` maps a
disk path to the content `readFileSync` returns at request time.
Application callbacks are opaque, hence `none`.  `Content-Length` is
`Buffer.byteLength` of the served string, i.e. its UTF-8 byte count. -/
def runAssetHandler (disk : String → String) : Handler β → Option HttpResponse
  | .app _ => none
  | .eagerTS contents extension =>
    some ⟨200, [("Content-Type", (MIMEFromExt extension).1)], contents⟩
  | .eagerDist contents extension =>
    some ⟨200, [("Content-Type", (MIMEFromExt extension).1),
                ("Content-Length", toString contents.utf8ByteSize)], contents⟩
  | .lazyDist pathnameDir extension =>
    some ⟨200, [("Content-Type", (MIMEFromExt extension).1),
                ("Content-Length", toString (disk pathnameDir).utf8ByteSize)],
          disk pathnameDir⟩

/-! ## The asset projections -/

/-- The file-name split of the projections (`entry.split('.')`, take the
last element): the extension under which the file's MIME type is resolved. -/
def entryExtension (entry : String) : String :=
  (jsSplit entry '.').getLastD ""

/-- The route path the projections register for a file `entry` under route
prefix `staticRoute`: `join(staticRoute, entry)`, rebound to the parent
route via `join(pathnameRoute, "..")` when the name splits into base
`index` / extension `html`. -/
def entryRoute (staticRoute entry : String) : String :=
  let pathnameRoute := nodePathJoin staticRoute entry
  let splitFileName := jsSplit entry '.'
  let extension := splitFileName.getLastD ""
  let name := jsJoin splitFileName.dropLast '.'
  if name == "index" && extension == "html" then
    nodePathJoin pathnameRoute ".."
  else pathnameRoute

/-- `useStatic` from the TypeScript source (`src/index.ts`): walk the
listing, recurse into directories, and `get`-register one eager handler per
file at `entryRoute` (with separators normalized to `/`). -/
def useStaticTS : FsTree → String → String →
    ServerShell (Handler β) μ → Except RouteAlreadyBoundError (ServerShell (Handler β) μ)
  | .nil, _, _, sh => .ok sh
  | .dir entry children rest, staticDirectory, staticRoute, sh =>
    match useStaticTS children (nodePathJoin staticDirectory entry)
        (nodePathJoin staticRoute entry) sh with
    | .error e => .error e
    | .ok sh2 => useStaticTS rest staticDirectory staticRoute sh2
  | .file entry contents rest, staticDirectory, staticRoute, sh =>
    match sh.get (jsReplaceAllChar (entryRoute staticRoute entry) '\\' '/')
        (Handler.eagerTS contents (entryExtension entry)) with
    | .error e => .error e
    | .ok sh2 => useStaticTS rest staticDirectory staticRoute sh2

/-- `useStatic` from `dist/index.js`: identical walk, but its handler also
sets `Content-Length`. -/
def useStaticDist : FsTree → String → String →
    ServerShell (Handler β) μ → Except RouteAlreadyBoundError (ServerShell (Handler β) μ)
  | .nil, _, _, sh => .ok sh
  | .dir entry children rest, staticDirectory, staticRoute, sh =>
    match useStaticDist children (nodePathJoin staticDirectory entry)
        (nodePathJoin staticRoute entry) sh with
    | .error e => .error e
    | .ok sh2 => useStaticDist rest staticDirectory staticRoute sh2
  | .file entry contents rest, staticDirectory, staticRoute, sh =>
    match sh.get (jsReplaceAllChar (entryRoute staticRoute entry) '\\' '/')
        (Handler.eagerDist contents (entryExtension entry)) with
    | .error e => .error e
    | .ok sh2 => useStaticDist rest staticDirectory staticRoute sh2

/-- `useDynamic` from `dist/index.js`: identical walk, but the registered
handler stores `pathnameDir` and re-reads the file on every request (the
walk itself reads no file content). -/
def useDynamic : FsTree → String → String →
    ServerShell (Handler β) μ → Except RouteAlreadyBoundError (ServerShell (Handler β) μ)
  | .nil, _, _, sh => .ok sh
  | .dir entry children rest, directory, route, sh =>
    match useDynamic children (nodePathJoin directory entry)
        (nodePathJoin route entry) sh with
    | .error e => .error e
    | .ok sh2 => useDynamic rest directory route sh2
  | .file entry _ rest, directory, route, sh =>
    match sh.get (jsReplaceAllChar (entryRoute route entry) '\\' '/')
        (Handler.lazyDist (nodePathJoin directory entry) (entryExtension entry)) with
    | .error e => .error e
    | .ok sh2 => useDynamic rest directory route sh2

/-! ## The conflict rule and the registration specification -/

/-- The conflict rule, as a boolean guard over an existing binding and the
`(path, method)` pair being registered: same path and (same method, or the
existing binding's method is `ANY`, or the method being registered is
`ANY`). -/
def conflictB (r : Route α) (path method : String) : Bool :=
  r.path == path && (r.method == method || r.method == "ANY" || method == "ANY")

/-- The conflict rule between two bindings, as stated by the spec. -/
def ConflictRule (a b : Route α) : Prop :=
  a.path = b.path ∧ (a.method = b.method ∨ a.method = "ANY" ∨ b.method = "ANY")

/-- The route-table invariant: no two bindings conflict. -/
def NoConflict (rs : List (Route α)) : Prop :=
  rs.Pairwise fun a b => ¬ ConflictRule a b

/-- All six registration methods share this shape: the guard of method `m`
is exactly `conflictB · path m`, the success case appends `(path, m)`. -/
def registerCore (sh : ServerShell α μ) (path method : String) (listener : α) :
    Except RouteAlreadyBoundError (ServerShell α μ) :=
  if sh.routes.any fun r => conflictB r path method then
    .error ⟨path⟩
  else
    .ok { sh with routes := sh.routes ++ [⟨path, method, listener⟩] }

theorem conflictB_eq_true {r : Route α} {p m : String} :
    conflictB r p m = true ↔
      r.path = p ∧ (r.method = m ∨ r.method = "ANY" ∨ m = "ANY") := by
  simp [conflictB, or_assoc]

theorem get_eq_registerCore (sh : ServerShell α μ) (p : String) (l : α) :
    sh.get p l = registerCore sh p "GET" l := by
  have h : (fun r : Route α =>
      r.path == p && (r.method == "GET" || r.method == "ANY")) =
      fun r => conflictB r p "GET" := by
    funext r; simp [conflictB]
  simp [ServerShell.get, registerCore, h]

theorem post_eq_registerCore (sh : ServerShell α μ) (p : String) (l : α) :
    sh.post p l = registerCore sh p "POST" l := by
  have h : (fun r : Route α =>
      r.path == p && (r.method == "POST" || r.method == "ANY")) =
      fun r => conflictB r p "POST" := by
    funext r; simp [conflictB]
  simp [ServerShell.post, registerCore, h]

theorem options_eq_registerCore (sh : ServerShell α μ) (p : String) (l : α) :
    sh.options p l = registerCore sh p "OPTIONS" l := by
  have h : (fun r : Route α =>
      r.path == p && (r.method == "OPTIONS" || r.method == "ANY")) =
      fun r => conflictB r p "OPTIONS" := by
    funext r; simp [conflictB]
  simp [ServerShell.options, registerCore, h]

theorem put_eq_registerCore (sh : ServerShell α μ) (p : String) (l : α) :
    sh.put p l = registerCore sh p "PUT" l := by
  have h : (fun r : Route α =>
      r.path == p && (r.method == "PUT" || r.method == "ANY")) =
      fun r => conflictB r p "PUT" := by
    funext r; simp [conflictB]
  simp [ServerShell.put, registerCore, h]

theorem delete_eq_registerCore (sh : ServerShell α μ) (p : String) (l : α) :
    sh.delete p l = registerCore sh p "DELETE" l := by
  have h : (fun r : Route α =>
      r.path == p && (r.method == "DELETE" || r.method == "ANY")) =
      fun r => conflictB r p "DELETE" := by
    funext r; simp [conflictB]
  simp [ServerShell.delete, registerCore, h]

theorem any_eq_registerCore (sh : ServerShell α μ) (p : String) (l : α) :
    sh.any p l = registerCore sh p "ANY" l := by
  have h : (fun r : Route α => r.path == p) = fun r => conflictB r p "ANY" := by
    funext r; simp [conflictB]
  simp [ServerShell.any, registerCore, h]

theorem registerCore_error_iff {sh : ServerShell α μ} {p m : String} {l : α} :
    (∃ e, registerCore sh p m l = .error e) ↔
      ∃ r ∈ sh.routes, conflictB r p m = true := by
  unfold registerCore
  by_cases h : sh.routes.any (fun r => conflictB r p m) = true
  · simp only [if_pos h]
    simpa [List.any_eq_true] using h
  · simp only [if_neg h]
    simp only [List.any_eq_true] at h
    simpa using h

theorem registerCore_error_val {sh : ServerShell α μ} {p m : String} {l : α}
    {e : RouteAlreadyBoundError} (h : registerCore sh p m l = .error e) :
    e = ⟨p⟩ := by
  unfold registerCore at h
  split at h
  · exact (Except.error.injEq _ _).mp h.symm ▸ rfl
  · exact absurd h (by simp)

theorem registerCore_ok {sh sh' : ServerShell α μ} {p m : String} {l : α}
    (h : registerCore sh p m l = .ok sh') :
    sh'.routes = sh.routes ++ [⟨p, m, l⟩] ∧ sh'.middleware = sh.middleware ∧
      ∀ r ∈ sh.routes, conflictB r p m = false := by
  unfold registerCore at h
  split at h
  · exact absurd h (by simp)
  · rename_i hg
    obtain rfl : { sh with routes := sh.routes ++ [⟨p, m, l⟩] } = sh' := by
      simpa using h
    refine ⟨rfl, rfl, ?_⟩
    intro r hr
    simp only [List.any_eq_true, not_exists, not_and] at hg
    simpa using hg r hr

theorem registerCore_ok_of_noconflict {sh : ServerShell α μ} {p m : String}
    {l : α} (h : ∀ r ∈ sh.routes, conflictB r p m = false) :
    registerCore sh p m l = .ok { sh with routes := sh.routes ++ [⟨p, m, l⟩] } := by
  unfold registerCore
  rw [if_neg]
  simp only [List.any_eq_true, not_exists, not_and]
  intro r hr
  simp [h r hr]

/-- A successful registration preserves the no-conflict invariant. -/
theorem registerCore_noConflict {sh sh' : ServerShell α μ} {p m : String}
    {l : α} (hok : registerCore sh p m l = .ok sh')
    (hnc : NoConflict sh.routes) : NoConflict sh'.routes := by
  obtain ⟨hr, -, hg⟩ := registerCore_ok hok
  rw [hr]
  unfold NoConflict at hnc ⊢
  rw [List.pairwise_append]
  refine ⟨hnc, List.pairwise_singleton _ _, ?_⟩
  intro a ha b hb
  simp only [List.mem_singleton] at hb
  subst hb
  intro hcon
  have h2 : conflictB a p m = true := conflictB_eq_true.mpr hcon
  rw [hg a ha] at h2
  exact Bool.false_ne_true h2

/-! ## Dispatch characterization -/

/-- The combined loop condition of the dispatcher for one route: the
`equals` branch or the `ANY` branch. -/
def matchB (r : Route α) (url method : String) : Bool :=
  r.equals url method || (r.path == url && r.method == "ANY")

theorem matchB_eq_true {r : Route α} {u m : String} :
    matchB r u m = true ↔ r.path = u ∧ (r.method = m ∨ r.method = "ANY") := by
  simp [matchB, Route.equals, and_or_left]

theorem routeScan_eq (rs : List (Route α)) (u m : String) :
    routeScan rs u m =
      ((rs.filter fun r => matchB r u m).map Route.callback,
        rs.any fun r => matchB r u m) := by
  induction rs with
  | nil => rfl
  | cons r rest ih =>
    unfold routeScan
    rw [ih]
    by_cases h1 : r.equals u m = true
    · simp [List.filter_cons, matchB, h1]
    · by_cases h2 : (r.path == u && r.method == "ANY") = true
      · simp [List.filter_cons, matchB, h1, h2]
      · simp [List.filter_cons, matchB, h1, h2]

theorem handlerCalls_append (a b : List (Event α μ)) :
    handlerCalls (a ++ b) = handlerCalls a ++ handlerCalls b :=
  List.filterMap_append a b _

theorem handlerCalls_map_handlerCall (l : List α) :
    handlerCalls (l.map (Event.handlerCall (μ := μ))) = l := by
  induction l with
  | nil => rfl
  | cons a t ih =>
    simp only [List.map_cons]
    show a :: handlerCalls (t.map Event.handlerCall) = a :: t
    rw [ih]

theorem handlerCalls_handleRequest (sh : ServerShell α μ) (u m : String) :
    handlerCalls (handleRequest sh u m) =
      (sh.routes.filter fun r => matchB r u m).map Route.callback := by
  unfold handleRequest
  rw [routeScan_eq]
  show handlerCalls (_ ++ _) = _
  rw [handlerCalls_append, handlerCalls_map_handlerCall]
  by_cases h : sh.routes.any (fun r => matchB r u m) = true
  · rw [if_pos h]
    show _ ++ ([] : List α) = _
    rw [List.append_nil]
  · rw [Bool.not_eq_true] at h
    rw [if_neg (by rw [h]; exact Bool.false_ne_true)]
    show _ ++ ([] : List α) = _
    rw [List.append_nil]

/-- Two bindings matching the same request conflict. -/
theorem conflict_of_both_match {a b : Route α} {u m : String}
    (ha : matchB a u m = true) (hb : matchB b u m = true) :
    ConflictRule a b := by
  obtain ⟨hap, ham⟩ := matchB_eq_true.mp ha
  obtain ⟨hbp, hbm⟩ := matchB_eq_true.mp hb
  refine ⟨hap.trans hbp.symm, ?_⟩
  rcases ham with h1 | h1 <;> rcases hbm with h2 | h2
  · exact Or.inl (h1.trans h2.symm)
  · exact Or.inr (Or.inr h2)
  · exact Or.inr (Or.inl h1)
  · exact Or.inr (Or.inl h1)

/-- In a conflict-free table, the dispatcher's loop condition selects at
most the single binding `r`. -/
theorem filter_matchB_eq_single {rs : List (Route α)} {r : Route α}
    {u m : String} (hnc : NoConflict rs) (hr : r ∈ rs)
    (hm : matchB r u m = true) :
    rs.filter (fun x => matchB x u m) = [r] := by
  induction rs with
  | nil => cases hr
  | cons a rest ih =>
    unfold NoConflict at hnc
    rw [List.pairwise_cons] at hnc
    obtain ⟨hhead, htail⟩ := hnc
    rcases List.mem_cons.mp hr with rfl | hr'
    · have hstep : List.filter (fun x => matchB x u m) (r :: rest) =
          r :: List.filter (fun x => matchB x u m) rest :=
        List.filter_cons_of_pos hm
      rw [hstep]
      have hnone : ∀ x ∈ rest, matchB x u m = false := by
        intro x hx
        by_contra hcon
        rw [Bool.not_eq_false] at hcon
        exact hhead x hx (conflict_of_both_match hm hcon)
      rw [List.filter_eq_nil_iff.mpr fun x hx => by simp [hnone x hx]]
    · have hafalse : matchB a u m = false := by
        by_contra hcon
        rw [Bool.not_eq_false] at hcon
        exact hhead r hr' (conflict_of_both_match hcon hm)
      have hstep : List.filter (fun x => matchB x u m) (a :: rest) =
          List.filter (fun x => matchB x u m) rest :=
        List.filter_cons_of_neg (by simp [hafalse])
      rw [hstep]
      exact ih htail hr'

theorem filter_matchB_eq_nil {rs : List (Route α)} {u m : String}
    (h : ∀ r ∈ rs, matchB r u m = false) :
    rs.filter (fun x => matchB x u m) = [] :=
  List.filter_eq_nil_iff.mpr fun x hx => by simp [h x hx]

/-! ## Tables reachable through the public registration surface -/

/-- Shells reachable from a fresh shell by the public operations: the six
registration methods, `use`, and the three asset projections. -/
inductive Reachable {β μ : Type} : ServerShell (Handler β) μ → Prop where
  | new (m₀ : μ) : Reachable (ServerShell.new m₀)
  | get {sh sh' : ServerShell (Handler β) μ} {p : String} {l : Handler β} :
      Reachable sh → sh.get p l = .ok sh' → Reachable sh'
  | post {sh sh' : ServerShell (Handler β) μ} {p : String} {l : Handler β} :
      Reachable sh → sh.post p l = .ok sh' → Reachable sh'
  | options {sh sh' : ServerShell (Handler β) μ} {p : String} {l : Handler β} :
      Reachable sh → sh.options p l = .ok sh' → Reachable sh'
  | put {sh sh' : ServerShell (Handler β) μ} {p : String} {l : Handler β} :
      Reachable sh → sh.put p l = .ok sh' → Reachable sh'
  | delete {sh sh' : ServerShell (Handler β) μ} {p : String} {l : Handler β} :
      Reachable sh → sh.delete p l = .ok sh' → Reachable sh'
  | any {sh sh' : ServerShell (Handler β) μ} {p : String} {l : Handler β} :
      Reachable sh → sh.any p l = .ok sh' → Reachable sh'
  | use {sh : ServerShell (Handler β) μ} {m : μ} :
      Reachable sh → Reachable (sh.use m)
  | staticTS {sh sh' : ServerShell (Handler β) μ} {t : FsTree} {sd sr : String} :
      Reachable sh → useStaticTS t sd sr sh = .ok sh' → Reachable sh'
  | staticDist {sh sh' : ServerShell (Handler β) μ} {t : FsTree} {sd sr : String} :
      Reachable sh → useStaticDist t sd sr sh = .ok sh' → Reachable sh'
  | dynamic {sh sh' : ServerShell (Handler β) μ} {t : FsTree} {sd sr : String} :
      Reachable sh → useDynamic t sd sr sh = .ok sh' → Reachable sh'

theorem useStaticTS_noConflict {β μ : Type} :
    ∀ (t : FsTree) (sd sr : String) (sh sh' : ServerShell (Handler β) μ),
    useStaticTS t sd sr sh = .ok sh' → NoConflict sh.routes →
    NoConflict sh'.routes := by
  intro t
  induction t with
  | nil =>
    intro sd sr sh sh' hok hnc
    cases hok
    exact hnc
  | dir entry children rest ihc ihr =>
    intro sd sr sh sh' hok hnc
    unfold useStaticTS at hok
    split at hok
    · cases hok
    · rename_i sh2 hch
      exact ihr sd sr sh2 sh' hok (ihc _ _ sh sh2 hch hnc)
  | file entry contents rest ihr =>
    intro sd sr sh sh' hok hnc
    unfold useStaticTS at hok
    split at hok
    · cases hok
    · rename_i sh2 hget
      rw [get_eq_registerCore] at hget
      exact ihr sd sr sh2 sh' hok (registerCore_noConflict hget hnc)

theorem useStaticDist_noConflict {β μ : Type} :
    ∀ (t : FsTree) (sd sr : String) (sh sh' : ServerShell (Handler β) μ),
    useStaticDist t sd sr sh = .ok sh' → NoConflict sh.routes →
    NoConflict sh'.routes := by
  intro t
  induction t with
  | nil =>
    intro sd sr sh sh' hok hnc
    cases hok
    exact hnc
  | dir entry children rest ihc ihr =>
    intro sd sr sh sh' hok hnc
    unfold useStaticDist at hok
    split at hok
    · cases hok
    · rename_i sh2 hch
      exact ihr sd sr sh2 sh' hok (ihc _ _ sh sh2 hch hnc)
  | file entry contents rest ihr =>
    intro sd sr sh sh' hok hnc
    unfold useStaticDist at hok
    split at hok
    · cases hok
    · rename_i sh2 hget
      rw [get_eq_registerCore] at hget
      exact ihr sd sr sh2 sh' hok (registerCore_noConflict hget hnc)

theorem useDynamic_noConflict {β μ : Type} :
    ∀ (t : FsTree) (sd sr : String) (sh sh' : ServerShell (Handler β) μ),
    useDynamic t sd sr sh = .ok sh' → NoConflict sh.routes →
    NoConflict sh'.routes := by
  intro t
  induction t with
  | nil =>
    intro sd sr sh sh' hok hnc
    cases hok
    exact hnc
  | dir entry children rest ihc ihr =>
    intro sd sr sh sh' hok hnc
    unfold useDynamic at hok
    split at hok
    · cases hok
    · rename_i sh2 hch
      exact ihr sd sr sh2 sh' hok (ihc _ _ sh sh2 hch hnc)
  | file entry contents rest ihr =>
    intro sd sr sh sh' hok hnc
    unfold useDynamic at hok
    split at hok
    · cases hok
    · rename_i sh2 hget
      rw [get_eq_registerCore] at hget
      exact ihr sd sr sh2 sh' hok (registerCore_noConflict hget hnc)

/-- The central invariant: every reachable table is conflict-free. -/
theorem reachable_noConflict {β μ : Type} {sh : ServerShell (Handler β) μ}
    (h : Reachable sh) : NoConflict sh.routes := by
  induction h with
  | new m₀ => exact List.Pairwise.nil
  | get _ hok ih =>
    rw [get_eq_registerCore] at hok
    exact registerCore_noConflict hok ih
  | post _ hok ih =>
    rw [post_eq_registerCore] at hok
    exact registerCore_noConflict hok ih
  | options _ hok ih =>
    rw [options_eq_registerCore] at hok
    exact registerCore_noConflict hok ih
  | put _ hok ih =>
    rw [put_eq_registerCore] at hok
    exact registerCore_noConflict hok ih
  | delete _ hok ih =>
    rw [delete_eq_registerCore] at hok
    exact registerCore_noConflict hok ih
  | any _ hok ih =>
    rw [any_eq_registerCore] at hok
    exact registerCore_noConflict hok ih
  | use _ ih => exact ih
  | staticTS _ hok ih => exact useStaticTS_noConflict _ _ _ _ _ hok ih
  | staticDist _ hok ih => exact useStaticDist_noConflict _ _ _ _ _ hok ih
  | dynamic _ hok ih => exact useDynamic_noConflict _ _ _ _ _ hok ih

/-! ## The registration operations, uniformly -/

/-- The five registration operations of the TypeScript source plus the
`options` of `dist/index.js`. -/
inductive RegOp where
  | get
  | post
  | options
  | put
  | delete
  | any

/-- The method string each operation binds. -/
def RegOp.methodStr : RegOp → String
  | .get => "GET"
  | .post => "POST"
  | .options => "OPTIONS"
  | .put => "PUT"
  | .delete => "DELETE"
  | .any => "ANY"

/-- Dispatch to the registration method an operation names. -/
def regCall (op : RegOp) (sh : ServerShell α μ) (p : String) (l : α) :
    Except RouteAlreadyBoundError (ServerShell α μ) :=
  match op with
  | .get => sh.get p l
  | .post => sh.post p l
  | .options => sh.options p l
  | .put => sh.put p l
  | .delete => sh.delete p l
  | .any => sh.any p l

theorem regCall_eq_registerCore (op : RegOp) (sh : ServerShell α μ)
    (p : String) (l : α) :
    regCall op sh p l = registerCore sh p op.methodStr l := by
  cases op
  · exact get_eq_registerCore sh p l
  · exact post_eq_registerCore sh p l
  · exact options_eq_registerCore sh p l
  · exact put_eq_registerCore sh p l
  · exact delete_eq_registerCore sh p l
  · exact any_eq_registerCore sh p l

/-! ## Claims -/

/-- C1: a registration call (get/post/options/put/delete/any) raises
`RouteAlreadyBoundError` if and only if some existing binding has the same
path and (the same method, or the existing binding's method is `ANY`, or
the method being registered is `ANY`); the raised error identifies the
path; on success the new binding is appended at the end and all prior
bindings (and the middleware slot) are unchanged.  In the `Except`
embedding a raising call returns no shell at all, so the caller's table is
exactly the one it passed in: a failed call leaves every subsequent lookup
unchanged. -/
theorem c1_registration_conflict (op : RegOp) (sh : ServerShell α μ)
    (p : String) (l : α) :
    ((∃ e, regCall op sh p l = .error e) ↔
      ∃ r ∈ sh.routes, r.path = p ∧
        (r.method = op.methodStr ∨ r.method = "ANY" ∨ op.methodStr = "ANY")) ∧
    (∀ e, regCall op sh p l = .error e → e = ⟨p⟩) ∧
    (∀ sh', regCall op sh p l = .ok sh' →
      sh'.routes = sh.routes ++ [⟨p, op.methodStr, l⟩] ∧
        sh'.middleware = sh.middleware) := by
  rw [regCall_eq_registerCore]
  refine ⟨?_, ?_, ?_⟩
  · exact registerCore_error_iff.trans
      (exists_congr fun r => and_congr_right fun _ => conflictB_eq_true)
  · intro e he
    exact registerCore_error_val he
  · intro sh' h
    obtain ⟨h1, h2, -⟩ := registerCore_ok h
    exact ⟨h1, h2⟩

/-- C1 witness: on a table holding `("/a", GET)`, registering GET at `"/a"`
fails with the error naming `"/a"`, while registering POST at `"/a"`
succeeds and appends. -/
theorem c1_registration_conflict_witness :
    regCall RegOp.get (⟨[⟨"/a", "GET", ()⟩], ()⟩ : ServerShell Unit Unit) "/a" ()
      = .error ⟨"/a"⟩ ∧
    regCall RegOp.post (⟨[⟨"/a", "GET", ()⟩], ()⟩ : ServerShell Unit Unit) "/a" ()
      = .ok ⟨[⟨"/a", "GET", ()⟩, ⟨"/a", "POST", ()⟩], ()⟩ := by
  constructor
  · have h := c1_registration_conflict RegOp.get
      (⟨[⟨"/a", "GET", ()⟩], ()⟩ : ServerShell Unit Unit) "/a" ()
    obtain ⟨e, he⟩ := h.1.mpr ⟨⟨"/a", "GET", ()⟩, by simp, rfl, Or.inl rfl⟩
    rw [h.2.1 e he] at he
    exact he
  · rfl

/-- C4: a request matching no binding gets exactly: middleware, then a 404
response with `Content-Type: text/html` and body `"Cannot get " ++ url`,
and no handler is invoked (the trace holds no `handlerCall`). -/
theorem c4_unmatched_404 (sh : ServerShell α μ) (url method : String)
    (h : ∀ r ∈ sh.routes, ¬(r.path = url ∧ (r.method = method ∨ r.method = "ANY"))) :
    handleRequest sh url method =
      [Event.middlewareCall sh.middleware,
       Event.writeHead 404 [("Content-Type", "text/html")],
       Event.endBody ("Cannot get " ++ url)] := by
  have hf : ∀ r ∈ sh.routes, matchB r url method = false := by
    intro r hr
    by_contra hcon
    rw [Bool.not_eq_false] at hcon
    exact h r hr (matchB_eq_true.mp hcon)
  have ha : sh.routes.any (fun r => matchB r url method) = false := by
    rw [List.any_eq_false]
    intro r hr
    simp [hf r hr]
  unfold handleRequest
  rw [routeScan_eq, filter_matchB_eq_nil hf]
  simp [ha]

/-- C4 witness: dispatching on an empty table. -/
theorem c4_unmatched_404_witness :
    handleRequest (ServerShell.new (α := Unit) (μ := Unit) ()) "/x" "GET" =
      [Event.middlewareCall (),
       Event.writeHead 404 [("Content-Type", "text/html")],
       Event.endBody "Cannot get /x"] :=
  c4_unmatched_404 (ServerShell.new ()) "/x" "GET" (by simp [ServerShell.new])

/-- C5: every dispatch trace begins with the single middleware invocation —
it happens exactly once, strictly before any handler call or response
write — and `use` replaces the middleware slot wholesale, leaving the
routes unchanged. -/
theorem c5_middleware_once_first (sh : ServerShell α μ) (url method : String)
    (m₁ m₂ : μ) :
    (∃ rest, handleRequest sh url method =
        Event.middlewareCall sh.middleware :: rest ∧
      ∀ e ∈ rest, ∀ mw, e ≠ Event.middlewareCall mw) ∧
    (sh.use m₁).middleware = m₁ ∧ (sh.use m₁).routes = sh.routes ∧
    (sh.use m₁).use m₂ = sh.use m₂ := by
  refine ⟨⟨_, rfl, ?_⟩, rfl, rfl, rfl⟩
  intro e he mw
  rcases List.mem_append.mp he with h1 | h2
  · obtain ⟨a, -, rfl⟩ := List.mem_map.mp h1
    simp
  · by_cases hfound : (routeScan sh.routes url method).2 = true
    · rw [if_pos hfound] at h2
      cases h2
    · rw [if_neg hfound] at h2
      rcases List.mem_cons.mp h2 with rfl | h3
      · simp
      · rcases List.mem_cons.mp h3 with rfl | h4
        · simp
        · cases h4

/-- A small reachable table: one GET binding at `"/a"`. -/
def sampleShell : ServerShell (Handler Unit) Unit :=
  ⟨[⟨"/a", "GET", Handler.app ()⟩], ()⟩

theorem sampleShell_reachable : Reachable sampleShell :=
  Reachable.get (Reachable.new ()) rfl

/-- C2: in any table built through the registration API, dispatching a
registered binding's own `(path, method)` invokes exactly that binding's
handler; dispatching `(path, m)` for a method not registered at `path`
invokes no handler when no `ANY` binding exists at `path`, and invokes
exactly the `ANY` binding's handler when one does. -/
theorem c2_dispatch_lookup {β μ : Type} (sh : ServerShell (Handler β) μ)
    (hreach : Reachable sh) :
    (∀ r ∈ sh.routes,
      handlerCalls (handleRequest sh r.path r.method) = [r.callback]) ∧
    (∀ p m, (¬ ∃ r ∈ sh.routes, r.path = p ∧ r.method = m) →
      ((¬ ∃ r ∈ sh.routes, r.path = p ∧ r.method = "ANY") →
        handlerCalls (handleRequest sh p m) = []) ∧
      (∀ r ∈ sh.routes, r.path = p → r.method = "ANY" →
        handlerCalls (handleRequest sh p m) = [r.callback])) := by
  have hnc := reachable_noConflict hreach
  constructor
  · intro r hr
    rw [handlerCalls_handleRequest,
      filter_matchB_eq_single hnc hr (matchB_eq_true.mpr ⟨rfl, Or.inl rfl⟩)]
    rfl
  · intro p m hno
    constructor
    · intro hnoany
      have hf : ∀ r ∈ sh.routes, matchB r p m = false := by
        intro r hr
        by_contra hcon
        rw [Bool.not_eq_false] at hcon
        obtain ⟨hp, hm⟩ := matchB_eq_true.mp hcon
        rcases hm with hm | hm
        · exact hno ⟨r, hr, hp, hm⟩
        · exact hnoany ⟨r, hr, hp, hm⟩
      rw [handlerCalls_handleRequest, filter_matchB_eq_nil hf]
      rfl
    · intro r hr hp hm
      rw [handlerCalls_handleRequest,
        filter_matchB_eq_single hnc hr (matchB_eq_true.mpr ⟨hp, Or.inr hm⟩)]
      rfl

/-- C2 witness: on the table holding only `("/a", GET)`, dispatching
`("/a", GET)` invokes that handler; dispatching `("/a", POST)` invokes
none. -/
theorem c2_dispatch_lookup_witness :
    handlerCalls (handleRequest sampleShell "/a" "GET") = [Handler.app ()] ∧
    handlerCalls (handleRequest sampleShell "/a" "POST") = [] := by
  constructor
  · exact (c2_dispatch_lookup sampleShell sampleShell_reachable).1
      ⟨"/a", "GET", Handler.app ()⟩ (by simp [sampleShell])
  · exact (((c2_dispatch_lookup sampleShell sampleShell_reachable).2 "/a" "POST")
        (by simp [sampleShell])).1 (by simp [sampleShell])

/-- In a conflict-free table at most one binding matches any request. -/
theorem filter_matchB_length_le_one {rs : List (Route α)} {u m : String}
    (hnc : NoConflict rs) :
    (rs.filter fun r => matchB r u m).length ≤ 1 := by
  by_cases hex : ∃ r ∈ rs, matchB r u m = true
  · obtain ⟨r, hr, hm⟩ := hex
    rw [filter_matchB_eq_single hnc hr hm]
    exact le_refl 1
  · push_neg at hex
    rw [filter_matchB_eq_nil fun r hr => by
      have := hex r hr
      exact Bool.not_eq_true _ ▸ this]
    exact Nat.zero_le 1

/-- C3: every table reachable through the public registration surface
(including the asset projections, which register through `get`) is
conflict-free, and consequently every dispatch invokes at most one
handler. -/
theorem c3_noConflict_invariant {β μ : Type} (sh : ServerShell (Handler β) μ)
    (hreach : Reachable sh) :
    NoConflict sh.routes ∧
    ∀ url method, (handlerCalls (handleRequest sh url method)).length ≤ 1 := by
  have hnc := reachable_noConflict hreach
  refine ⟨hnc, ?_⟩
  intro url method
  rw [handlerCalls_handleRequest, List.length_map]
  exact filter_matchB_length_le_one hnc

/-- C3 witness. -/
theorem c3_noConflict_invariant_witness :
    NoConflict sampleShell.routes ∧
    (handlerCalls (handleRequest sampleShell "/a" "GET")).length ≤ 1 :=
  ⟨(c3_noConflict_invariant sampleShell sampleShell_reachable).1,
   (c3_noConflict_invariant sampleShell sampleShell_reachable).2 "/a" "GET"⟩

/-- C9: the MIME resolver is a pure function with case-sensitive exact
matching: `"png"` maps to `"image/png"` and every listed extension to its
fixed type with no diagnostic; every extension outside the table resolves
to `"text/plain"` with exactly one diagnostic whose text names that
extension (it occurs between the fixed prefix and suffix of the message). -/
theorem c9_mime_resolver :
    MIMEFromExt "png" = ("image/png", []) ∧
    (∀ p ∈ mimeTable, MIMEFromExt p.1 = (p.2, [])) ∧
    (∀ ext, ext ∉ mimeTable.map Prod.fst →
      MIMEFromExt ext = ("text/plain", [unknownExtMessage ext]) ∧
      (unknownExtMessage ext).data =
        ("Encountered unknown extension while generating static routes: ." : String).data ++
          ext.data ++
          (" - If you want this fixed as quickly as possible, open an issue at https://github.com/SaphirDeFeu/TSMServerShell-Node/issues" : String).data) := by
  refine ⟨by decide, by decide, ?_⟩
  intro ext h
  constructor
  · unfold MIMEFromExt
    split
    all_goals first
      | rfl
      | exact absurd (by decide) h
  · unfold unknownExtMessage
    rw [String.data_append, String.data_append]

/-- C9 witness: an unknown extension falls back with its single diagnostic. -/
theorem c9_mime_resolver_witness :
    MIMEFromExt "unknownext" = ("text/plain", [unknownExtMessage "unknownext"]) ∧
    MIMEFromExt "PNG" = ("text/plain", [unknownExtMessage "PNG"]) :=
  ⟨((c9_mime_resolver.2.2) "unknownext" (by decide)).1,
   ((c9_mime_resolver.2.2) "PNG" (by decide)).1⟩

/-! ## String and path lemmas for the asset projections -/

theorem str_eq_of_data {s t : String} (h : s.data = t.data) : s = t := by
  cases s
  cases t
  exact congrArg String.mk h

theorem modifyHead_append {α : Type} (f : List α → List α) (xs ys : List (List α))
    (h : xs ≠ []) : (xs ++ ys).modifyHead f = xs.modifyHead f ++ ys := by
  cases xs with
  | nil => exact absurd rfl h
  | cons a l => rfl

theorem splitOn_append_sep (c : Char) (bs : List Char) (h : c ∉ bs) :
    ∀ as : List Char, (as ++ c :: bs).splitOn c = as.splitOn c ++ [bs] := by
  intro as
  induction as with
  | nil =>
    show (c :: bs).splitOnP (· == c) = [] :: [bs]
    rw [List.splitOnP_cons]
    rw [if_pos (by simp)]
    rw [List.splitOnP_eq_single _ _ fun x hx => by simp [ne_of_mem_of_not_mem hx h]]
  | cons a as ih =>
    show ((a :: (as ++ c :: bs)).splitOnP (· == c)) = (a :: as).splitOnP (· == c) ++ [bs]
    rw [List.splitOnP_cons, List.splitOnP_cons]
    by_cases hac : (a == c) = true
    · rw [if_pos hac, if_pos hac, List.cons_append]
      exact congrArg _ ih
    · rw [if_neg hac, if_neg hac]
      have hmh := modifyHead_append (List.cons a) (as.splitOnP (· == c)) [bs]
        (List.splitOnP_ne_nil _ as)
      rw [← hmh]
      exact congrArg _ ih

theorem nodeParentPath_concat (a b : String) (h : '/' ∉ b.data) :
    nodeParentPath ⟨a.data ++ '/' :: b.data⟩ = a := by
  unfold nodeParentPath
  show String.mk (List.intercalate ['/'] (((a.data ++ '/' :: b.data).splitOn '/').dropLast)) = a
  rw [splitOn_append_sep '/' b.data h a.data, List.dropLast_concat]
  show String.mk (['/'].intercalate (a.data.splitOn '/')) = a
  rw [List.intercalate_splitOn]

theorem string_append_slash (a b : String) :
    a ++ "/" ++ b = (⟨a.data ++ '/' :: b.data⟩ : String) := by
  apply str_eq_of_data
  simp [String.data_append]

theorem nodePathJoin_entry (a b : String) (h : b ≠ "..") :
    nodePathJoin a b = a ++ "/" ++ b := by
  unfold nodePathJoin
  rw [if_neg h]
  exact (string_append_slash a b).symm

theorem jsReplaceAllChar_eq_self (s : String) (h : '\\' ∉ s.data) :
    jsReplaceAllChar s '\\' '/' = s := by
  unfold jsReplaceAllChar
  have hmap : s.data.map (fun c => if c = '\\' then '/' else c) = s.data :=
    (List.map_congr_left fun a ha => if_neg (ne_of_mem_of_not_mem ha h)).trans
      (List.map_id _)
  show String.mk _ = s
  rw [hmap]

theorem intercalate_cons_cons (x : Char) (a b : List Char) (l : List (List Char)) :
    [x].intercalate (a :: b :: l) = a ++ x :: [x].intercalate (b :: l) := by
  simp [List.intercalate, List.intersperse_cons_cons]

theorem intercalate_concat (x : Char) (ds : List (List Char)) (lst : List Char)
    (h : ds ≠ []) :
    [x].intercalate (ds ++ [lst]) = [x].intercalate ds ++ x :: lst := by
  induction ds with
  | nil => exact absurd rfl h
  | cons d ds ih =>
    cases ds with
    | nil => simp [List.intercalate, List.intersperse_cons_cons]
    | cons e es =>
      calc [x].intercalate ((d :: e :: es) ++ [lst])
          = d ++ x :: [x].intercalate (e :: (es ++ [lst])) :=
            intercalate_cons_cons x d e (es ++ [lst])
        _ = d ++ x :: ([x].intercalate (e :: es) ++ x :: lst) :=
            congrArg (fun t => d ++ x :: t) (ih (by simp))
        _ = (d ++ x :: [x].intercalate (e :: es)) ++ x :: lst := by simp
        _ = [x].intercalate (d :: e :: es) ++ x :: lst := by
            rw [intercalate_cons_cons x d e es]

theorem dropLast_map {α β : Type} (f : α → β) :
    ∀ l : List α, (l.map f).dropLast = l.dropLast.map f := by
  intro l
  induction l with
  | nil => rfl
  | cons a t ih =>
    cases t with
    | nil => rfl
    | cons b m => simp [ih]

theorem map_mk_data (ds : List (List Char)) :
    (ds.map String.mk).map String.data = ds :=
  (List.map_map _ _ _).trans
    ((List.map_congr_left fun _ _ => rfl).trans (List.map_id _))

theorem entry_index_html_iff (entry : String) :
    (jsJoin (jsSplit entry '.').dropLast '.' = "index" ∧
      (jsSplit entry '.').getLastD "" = "html") ↔ entry = "index.html" := by
  constructor
  · rintro ⟨hname, hext⟩
    have hne : entry.data.splitOn '.' ≠ [] := List.splitOnP_ne_nil _ _
    obtain ⟨ds, lst, hds⟩ : ∃ ds lst, entry.data.splitOn '.' = ds ++ [lst] :=
      ⟨_, _, (List.dropLast_append_getLast hne).symm⟩
    have hparts : jsSplit entry '.' = ds.map String.mk ++ [String.mk lst] := by
      unfold jsSplit
      rw [hds, List.map_append]
      rfl
    rw [hparts, List.dropLast_concat] at hname
    rw [hparts, List.getLastD_concat] at hext
    have hnamed : ['.'].intercalate ds = ("index" : String).data := by
      have := congrArg String.data hname
      rwa [show (jsJoin (ds.map String.mk) '.').data =
          ['.'].intercalate ds from congrArg (List.intercalate ['.'])
          (map_mk_data ds)] at this
    have hlstd : lst = ("html" : String).data := congrArg String.data hext
    have hdsne : ds ≠ [] := by
      rintro rfl
      exact absurd hnamed (by decide)
    have hentry : entry.data = ['.'].intercalate (ds ++ [lst]) := by
      rw [← hds, List.intercalate_splitOn]
    rw [intercalate_concat '.' ds lst hdsne, hnamed, hlstd] at hentry
    exact str_eq_of_data (hentry.trans (by decide))
  · rintro rfl
    exact ⟨by decide, by decide⟩

theorem entryRoute_index (sr : String) : entryRoute sr "index.html" = sr := by
  show nodePathJoin (nodePathJoin sr "index.html") ".." = sr
  rw [nodePathJoin_entry sr "index.html" (by decide), string_append_slash]
  show nodeParentPath _ = sr
  exact nodeParentPath_concat sr "index.html" (by decide)

theorem entryRoute_plain (sr entry : String) (h2 : entry ≠ "index.html")
    (h3 : entry ≠ "..") : entryRoute sr entry = sr ++ "/" ++ entry := by
  have hcond : ¬((jsJoin (jsSplit entry '.').dropLast '.' == "index" &&
      (jsSplit entry '.').getLastD "" == "html") = true) := by
    rw [Bool.and_eq_true, beq_iff_eq, beq_iff_eq]
    intro hc
    exact h2 ((entry_index_html_iff entry).mp hc)
  show (if (jsJoin (jsSplit entry '.').dropLast '.' == "index" &&
      (jsSplit entry '.').getLastD "" == "html") = true then
      nodePathJoin (nodePathJoin sr entry) ".." else nodePathJoin sr entry) =
      sr ++ "/" ++ entry
  rw [if_neg hcond]
  exact nodePathJoin_entry sr entry h3

theorem no_bs_slash_append (sr entry : String) (h1 : '\\' ∉ sr.data)
    (h2 : '\\' ∉ entry.data) : '\\' ∉ (sr ++ "/" ++ entry).data := by
  have hd : (sr ++ "/" ++ entry).data = sr.data ++ '/' :: entry.data :=
    congrArg String.data (string_append_slash sr entry)
  rw [hd]
  simp only [List.mem_append, List.mem_cons]
  rintro (h | h | h)
  · exact h1 h
  · exact absurd h (by decide)
  · exact h2 h

def goodNameB (n : String) : Bool :=
  decide (n ≠ "..") && decide ('/' ∉ n.data) && decide ('\\' ∉ n.data)

def WFTreeB : FsTree → Bool
  | .nil => true
  | .file n _ rest => goodNameB n && WFTreeB rest
  | .dir n ch rest => goodNameB n && WFTreeB ch && WFTreeB rest

def expectedPaths : FsTree → String → List String
  | .nil, _ => []
  | .file name _ rest, routePrefix =>
    (if name == "index.html" then [routePrefix]
     else [routePrefix ++ "/" ++ name]) ++ expectedPaths rest routePrefix
  | .dir name children rest, routePrefix =>
    expectedPaths children (routePrefix ++ "/" ++ name) ++
      expectedPaths rest routePrefix

theorem goodNameB_iff {n : String} :
    goodNameB n = true ↔ n ≠ ".." ∧ '/' ∉ n.data ∧ '\\' ∉ n.data := by
  simp [goodNameB, and_assoc]

theorem useStaticTS_paths {β μ : Type} :
    ∀ (t : FsTree) (sd sr : String) (sh sh' : ServerShell (Handler β) μ),
    WFTreeB t = true → '\\' ∉ sr.data →
    useStaticTS t sd sr sh = .ok sh' →
    sh'.routes.map (fun r => (r.path, r.method)) =
      sh.routes.map (fun r => (r.path, r.method)) ++
        (expectedPaths t sr).map (fun p => (p, "GET")) := by
  intro t
  induction t with
  | nil =>
    intro sd sr sh sh' hwf hsr hok
    cases hok
    simp [expectedPaths]
  | dir entry children rest ihc ihr =>
    intro sd sr sh sh' hwf hsr hok
    unfold useStaticTS at hok
    split at hok
    · cases hok
    · rename_i sh2 hch
      have hw : goodNameB entry = true ∧ WFTreeB children = true ∧
          WFTreeB rest = true := by
        simpa [WFTreeB, Bool.and_eq_true, and_assoc] using hwf
      obtain ⟨hg, hwc, hwr⟩ := hw
      obtain ⟨hgdd, -, hgb⟩ := goodNameB_iff.mp hg
      rw [nodePathJoin_entry sr entry hgdd] at hch
      have hmid := ihc (nodePathJoin sd entry) (sr ++ "/" ++ entry) sh sh2 hwc
        (no_bs_slash_append sr entry hsr hgb) hch
      have hrest := ihr sd sr sh2 sh' hwr hsr hok
      rw [hrest, hmid]
      simp [expectedPaths, List.append_assoc]
  | file entry contents rest ihr =>
    intro sd sr sh sh' hwf hsr hok
    unfold useStaticTS at hok
    split at hok
    · cases hok
    · rename_i sh2 hget
      have hw : goodNameB entry = true ∧ WFTreeB rest = true := by
        simpa [WFTreeB, Bool.and_eq_true] using hwf
      obtain ⟨hg, hwr⟩ := hw
      obtain ⟨hgdd, -, hgb⟩ := goodNameB_iff.mp hg
      rw [get_eq_registerCore] at hget
      obtain ⟨hroutes, -, -⟩ := registerCore_ok hget
      have hrest := ihr sd sr sh2 sh' hwr hsr hok
      by_cases hidx : entry = "index.html"
      · subst hidx
        rw [entryRoute_index sr, jsReplaceAllChar_eq_self sr hsr] at hroutes
        rw [hrest, hroutes]
        simp [expectedPaths]
      · rw [entryRoute_plain sr entry hidx hgdd,
          jsReplaceAllChar_eq_self _ (no_bs_slash_append sr entry hsr hgb)]
          at hroutes
        rw [hrest, hroutes]
        simp [expectedPaths, hidx]

/-- The directory tree of the spec's projection example: `a.txt`,
`sub/b.png`, `sub/index.html`. -/
def sampleTree : FsTree :=
  .file "a.txt" "A" (.dir "sub" (.file "b.png" "B"
    (.file "index.html" "I" .nil)) .nil)

/-- C6: the eager projection registers exactly one GET route per regular
file, at the route prefix plus the file's relative path (separators being
`/`), except that a file named `index.html` is registered at its parent
directory's route path; in particular the example tree under prefix
`/assets` yields GET routes `/assets/a.txt`, `/assets/sub/b.png` and
`/assets/sub`. -/
theorem c6_eager_projection_layout {β μ : Type} :
    (∀ (t : FsTree) (sd sr : String) (sh sh' : ServerShell (Handler β) μ),
      WFTreeB t = true → '\\' ∉ sr.data →
      useStaticTS t sd sr sh = .ok sh' →
      sh'.routes.map (fun r => (r.path, r.method)) =
        sh.routes.map (fun r => (r.path, r.method)) ++
          (expectedPaths t sr).map (fun p => (p, "GET"))) ∧
    (useStaticTS sampleTree "/root" "/assets"
        (ServerShell.new (α := Handler Unit) (μ := Unit) ())).map
        (fun sh => sh.routes.map fun r => (r.path, r.method)) =
      .ok [("/assets/a.txt", "GET"), ("/assets/sub/b.png", "GET"),
           ("/assets/sub", "GET")] :=
  ⟨useStaticTS_paths, rfl⟩

/-- C6 witness: the general layout theorem applied to the example tree. -/
theorem c6_eager_projection_layout_witness :
    ∃ sh' : ServerShell (Handler Unit) Unit,
      useStaticTS sampleTree "/root" "/assets" (ServerShell.new ()) = .ok sh' ∧
      sh'.routes.map (fun r => (r.path, r.method)) =
        [("/assets/a.txt", "GET"), ("/assets/sub/b.png", "GET"),
         ("/assets/sub", "GET")] := by
  refine ⟨⟨[⟨"/assets/a.txt", "GET", Handler.eagerTS "A" "txt"⟩,
            ⟨"/assets/sub/b.png", "GET", Handler.eagerTS "B" "png"⟩,
            ⟨"/assets/sub", "GET", Handler.eagerTS "I" "html"⟩], ()⟩, rfl, ?_⟩
  have h := (c6_eager_projection_layout (β := Unit) (μ := Unit)).1 sampleTree
    "/root" "/assets" (ServerShell.new ()) _ (by decide) (by decide) rfl
  exact h.trans (by decide)

/-! ## Handler shapes of the three projections -/

theorem useStaticTS_handler_shapes {β μ : Type} :
    ∀ (t : FsTree) (sd sr : String) (sh sh' : ServerShell (Handler β) μ),
    useStaticTS t sd sr sh = .ok sh' → ∀ r ∈ sh'.routes, r ∈ sh.routes ∨
      ∃ c e, r.callback = Handler.eagerTS c e ∧ r.method = "GET" ∧
        ∃ n, (n, c) ∈ t.filesOf := by
  intro t
  induction t with
  | nil =>
    intro sd sr sh sh' hok r hr
    cases hok
    exact Or.inl hr
  | dir entry children rest ihc ihr =>
    intro sd sr sh sh' hok r hr
    unfold useStaticTS at hok
    split at hok
    · cases hok
    · rename_i sh2 hch
      rcases ihr sd sr sh2 sh' hok r hr with h2 | ⟨c, e, hcb, hm, n, hn⟩
      · rcases ihc _ _ sh sh2 hch r h2 with h1 | ⟨c, e, hcb, hm, n, hn⟩
        · exact Or.inl h1
        · exact Or.inr ⟨c, e, hcb, hm, n, by
            show (n, c) ∈ children.filesOf ++ rest.filesOf
            exact List.mem_append_left _ hn⟩
      · exact Or.inr ⟨c, e, hcb, hm, n, by
          show (n, c) ∈ children.filesOf ++ rest.filesOf
          exact List.mem_append_right _ hn⟩
  | file entry contents rest ihr =>
    intro sd sr sh sh' hok r hr
    unfold useStaticTS at hok
    split at hok
    · cases hok
    · rename_i sh2 hget
      rw [get_eq_registerCore] at hget
      obtain ⟨hroutes, -, -⟩ := registerCore_ok hget
      rcases ihr sd sr sh2 sh' hok r hr with h2 | ⟨c, e, hcb, hm, n, hn⟩
      · rw [hroutes] at h2
        rcases List.mem_append.mp h2 with h1 | h1
        · exact Or.inl h1
        · obtain rfl : r = ⟨jsReplaceAllChar (entryRoute sr entry) '\\' '/',
              "GET", Handler.eagerTS contents (entryExtension entry)⟩ := by
            simpa using h1
          exact Or.inr ⟨contents, entryExtension entry, rfl, rfl, entry,
            List.mem_cons_self _ _⟩
      · exact Or.inr ⟨c, e, hcb, hm, n, List.mem_cons_of_mem _ hn⟩

theorem useStaticDist_handler_shapes {β μ : Type} :
    ∀ (t : FsTree) (sd sr : String) (sh sh' : ServerShell (Handler β) μ),
    useStaticDist t sd sr sh = .ok sh' → ∀ r ∈ sh'.routes, r ∈ sh.routes ∨
      ∃ c e, r.callback = Handler.eagerDist c e ∧ r.method = "GET" ∧
        ∃ n, (n, c) ∈ t.filesOf := by
  intro t
  induction t with
  | nil =>
    intro sd sr sh sh' hok r hr
    cases hok
    exact Or.inl hr
  | dir entry children rest ihc ihr =>
    intro sd sr sh sh' hok r hr
    unfold useStaticDist at hok
    split at hok
    · cases hok
    · rename_i sh2 hch
      rcases ihr sd sr sh2 sh' hok r hr with h2 | ⟨c, e, hcb, hm, n, hn⟩
      · rcases ihc _ _ sh sh2 hch r h2 with h1 | ⟨c, e, hcb, hm, n, hn⟩
        · exact Or.inl h1
        · exact Or.inr ⟨c, e, hcb, hm, n, by
            show (n, c) ∈ children.filesOf ++ rest.filesOf
            exact List.mem_append_left _ hn⟩
      · exact Or.inr ⟨c, e, hcb, hm, n, by
          show (n, c) ∈ children.filesOf ++ rest.filesOf
          exact List.mem_append_right _ hn⟩
  | file entry contents rest ihr =>
    intro sd sr sh sh' hok r hr
    unfold useStaticDist at hok
    split at hok
    · cases hok
    · rename_i sh2 hget
      rw [get_eq_registerCore] at hget
      obtain ⟨hroutes, -, -⟩ := registerCore_ok hget
      rcases ihr sd sr sh2 sh' hok r hr with h2 | ⟨c, e, hcb, hm, n, hn⟩
      · rw [hroutes] at h2
        rcases List.mem_append.mp h2 with h1 | h1
        · exact Or.inl h1
        · obtain rfl : r = ⟨jsReplaceAllChar (entryRoute sr entry) '\\' '/',
              "GET", Handler.eagerDist contents (entryExtension entry)⟩ := by
            simpa using h1
          exact Or.inr ⟨contents, entryExtension entry, rfl, rfl, entry,
            List.mem_cons_self _ _⟩
      · exact Or.inr ⟨c, e, hcb, hm, n, List.mem_cons_of_mem _ hn⟩

theorem useDynamic_handler_shapes {β μ : Type} :
    ∀ (t : FsTree) (sd sr : String) (sh sh' : ServerShell (Handler β) μ),
    useDynamic t sd sr sh = .ok sh' → ∀ r ∈ sh'.routes, r ∈ sh.routes ∨
      ∃ p e, r.callback = Handler.lazyDist p e ∧ r.method = "GET" := by
  intro t
  induction t with
  | nil =>
    intro sd sr sh sh' hok r hr
    cases hok
    exact Or.inl hr
  | dir entry children rest ihc ihr =>
    intro sd sr sh sh' hok r hr
    unfold useDynamic at hok
    split at hok
    · cases hok
    · rename_i sh2 hch
      rcases ihr sd sr sh2 sh' hok r hr with h2 | hshape
      · rcases ihc _ _ sh sh2 hch r h2 with h1 | hshape
        · exact Or.inl h1
        · exact Or.inr hshape
      · exact Or.inr hshape
  | file entry contents rest ihr =>
    intro sd sr sh sh' hok r hr
    unfold useDynamic at hok
    split at hok
    · cases hok
    · rename_i sh2 hget
      rw [get_eq_registerCore] at hget
      obtain ⟨hroutes, -, -⟩ := registerCore_ok hget
      rcases ihr sd sr sh2 sh' hok r hr with h2 | hshape
      · rw [hroutes] at h2
        rcases List.mem_append.mp h2 with h1 | h1
        · exact Or.inl h1
        · obtain rfl : r = ⟨jsReplaceAllChar (entryRoute sr entry) '\\' '/',
              "GET", Handler.lazyDist (nodePathJoin sd entry)
                (entryExtension entry)⟩ := by
            simpa using h1
          exact Or.inr ⟨nodePathJoin sd entry, entryExtension entry, rfl, rfl⟩
      · exact Or.inr hshape

/-- C7 counterexample: the TypeScript source's eager projection
(`useStatic` in `src/index.ts`) registers a handler whose response carries
no `Content-Length` header at all, refuting the claim that every
projection-registered handler writes one. -/
theorem c7_counterexample :
    useStaticTS (FsTree.file "a.txt" "hi" FsTree.nil) "/root" "/assets"
        (ServerShell.new (α := Handler Unit) (μ := Unit) ()) =
      .ok ⟨[⟨"/assets/a.txt", "GET", Handler.eagerTS "hi" "txt"⟩], ()⟩ ∧
    (runAssetHandler (fun _ => "") (Handler.eagerTS "hi" "txt" : Handler Unit)).bind
        (fun resp => resp.headers.lookup "Content-Length") = none ∧
    (runAssetHandler (fun _ => "") (Handler.eagerTS "hi" "txt" : Handler Unit)).map
        HttpResponse.status = some 200 :=
  ⟨rfl, rfl, rfl⟩

/-- C7 (amended): handlers registered by the compiled build's projections
(`useStatic` / `useDynamic` in `dist/index.js`) write status 200, a
`Content-Type` from the MIME resolver on the extension, and a
`Content-Length` equal to the UTF-8 byte length of the served content,
then the body; the TypeScript source's `useStatic` handler writes status
200 and `Content-Type` only, omitting `Content-Length`. -/
theorem c7_projection_response {β μ : Type} :
    (∀ (t : FsTree) (sd sr : String) (sh sh' : ServerShell (Handler β) μ),
      useStaticDist t sd sr sh = .ok sh' → ∀ r ∈ sh'.routes, r ∈ sh.routes ∨
        ∃ c e, r.callback = Handler.eagerDist c e) ∧
    (∀ (t : FsTree) (sd sr : String) (sh sh' : ServerShell (Handler β) μ),
      useDynamic t sd sr sh = .ok sh' → ∀ r ∈ sh'.routes, r ∈ sh.routes ∨
        ∃ p e, r.callback = Handler.lazyDist p e) ∧
    (∀ (disk : String → String) (c e : String),
      runAssetHandler (β := β) disk (Handler.eagerDist c e) =
        some ⟨200, [("Content-Type", (MIMEFromExt e).1),
                    ("Content-Length", toString c.utf8ByteSize)], c⟩) ∧
    (∀ (disk : String → String) (p e : String),
      runAssetHandler (β := β) disk (Handler.lazyDist p e) =
        some ⟨200, [("Content-Type", (MIMEFromExt e).1),
                    ("Content-Length", toString (disk p).utf8ByteSize)],
              disk p⟩) ∧
    (∀ (disk : String → String) (c e : String),
      runAssetHandler (β := β) disk (Handler.eagerTS c e) =
        some ⟨200, [("Content-Type", (MIMEFromExt e).1)], c⟩) := by
  refine ⟨?_, ?_, fun _ _ _ => rfl, fun _ _ _ => rfl, fun _ _ _ => rfl⟩
  · intro t sd sr sh sh' hok r hr
    exact (useStaticDist_handler_shapes t sd sr sh sh' hok r hr).imp id
      fun ⟨c, e, hcb, _, _⟩ => ⟨c, e, hcb⟩
  · intro t sd sr sh sh' hok r hr
    exact (useDynamic_handler_shapes t sd sr sh sh' hok r hr).imp id
      fun ⟨p, e, hcb, _⟩ => ⟨p, e, hcb⟩

/-- C7 witness: the dist eager projection of a single file, and its
handler's concrete response (`Content-Length: 2` for the body `hi`). -/
theorem c7_projection_response_witness :
    ((⟨"/assets/a.txt", "GET", Handler.eagerDist "hi" "txt"⟩ :
        Route (Handler Unit)) ∈
        (ServerShell.new (α := Handler Unit) (μ := Unit) ()).routes ∨
      ∃ c e, (Handler.eagerDist "hi" "txt" : Handler Unit) =
        Handler.eagerDist c e) ∧
    runAssetHandler (fun _ => "") (Handler.eagerDist "hi" "txt" : Handler Unit) =
      some ⟨200, [("Content-Type", "text/plain"), ("Content-Length", "2")],
            "hi"⟩ := by
  constructor
  · exact (c7_projection_response (β := Unit) (μ := Unit)).1
      (FsTree.file "a.txt" "hi" FsTree.nil) "/root" "/assets"
      (ServerShell.new ())
      ⟨[⟨"/assets/a.txt", "GET", Handler.eagerDist "hi" "txt"⟩], ()⟩ rfl
      ⟨"/assets/a.txt", "GET", Handler.eagerDist "hi" "txt"⟩ (by simp)
  · exact ((c7_projection_response (β := Unit) (μ := Unit)).2.2.1
      (fun _ => "") "hi" "txt").trans (by decide)

/-- C8: handlers registered by either eager projection capture the
registration-time content (a file of the walked tree) and their response
does not depend on the request-time disk — the body is always the captured
string; handlers registered by the lazy projection store the disk path and
serve whatever the disk holds at request time, so a modification is
reflected on the next request. -/
theorem c8_eager_captures_lazy_rereads {β μ : Type} :
    (∀ (t : FsTree) (sd sr : String) (sh sh' : ServerShell (Handler β) μ),
      useStaticTS t sd sr sh = .ok sh' → ∀ r ∈ sh'.routes, r ∈ sh.routes ∨
        ∃ c e, r.callback = Handler.eagerTS c e ∧ (∃ n, (n, c) ∈ t.filesOf) ∧
          ∀ disk disk' : String → String,
            runAssetHandler disk r.callback = runAssetHandler disk' r.callback ∧
            (runAssetHandler disk r.callback).map HttpResponse.body = some c) ∧
    (∀ (t : FsTree) (sd sr : String) (sh sh' : ServerShell (Handler β) μ),
      useStaticDist t sd sr sh = .ok sh' → ∀ r ∈ sh'.routes, r ∈ sh.routes ∨
        ∃ c e, r.callback = Handler.eagerDist c e ∧ (∃ n, (n, c) ∈ t.filesOf) ∧
          ∀ disk disk' : String → String,
            runAssetHandler disk r.callback = runAssetHandler disk' r.callback ∧
            (runAssetHandler disk r.callback).map HttpResponse.body = some c) ∧
    (∀ (t : FsTree) (sd sr : String) (sh sh' : ServerShell (Handler β) μ),
      useDynamic t sd sr sh = .ok sh' → ∀ r ∈ sh'.routes, r ∈ sh.routes ∨
        ∃ p e, r.callback = Handler.lazyDist p e ∧
          ∀ disk : String → String,
            (runAssetHandler disk r.callback).map HttpResponse.body =
              some (disk p)) := by
  refine ⟨?_, ?_, ?_⟩
  · intro t sd sr sh sh' hok r hr
    refine (useStaticTS_handler_shapes t sd sr sh sh' hok r hr).imp id ?_
    rintro ⟨c, e, hcb, -, hfile⟩
    exact ⟨c, e, hcb, hfile, fun disk disk' => by rw [hcb]; exact ⟨rfl, rfl⟩⟩
  · intro t sd sr sh sh' hok r hr
    refine (useStaticDist_handler_shapes t sd sr sh sh' hok r hr).imp id ?_
    rintro ⟨c, e, hcb, -, hfile⟩
    exact ⟨c, e, hcb, hfile, fun disk disk' => by rw [hcb]; exact ⟨rfl, rfl⟩⟩
  · intro t sd sr sh sh' hok r hr
    refine (useDynamic_handler_shapes t sd sr sh sh' hok r hr).imp id ?_
    rintro ⟨p, e, hcb, -⟩
    exact ⟨p, e, hcb, fun disk => by rw [hcb]; rfl⟩

/-- C8 witness: projecting `a.txt` lazily, then reading it under a
modified disk serves the new content, while the eager handler keeps
serving the captured registration-time content. -/
theorem c8_eager_captures_lazy_rereads_witness :
    ((⟨"/assets/a.txt", "GET", Handler.lazyDist "/root/a.txt" "txt"⟩ :
        Route (Handler Unit)) ∈
        (ServerShell.new (α := Handler Unit) (μ := Unit) ()).routes ∨
      ∃ p e, (Handler.lazyDist "/root/a.txt" "txt" : Handler Unit) =
          Handler.lazyDist p e ∧
        ∀ disk : String → String,
          (runAssetHandler disk (Handler.lazyDist "/root/a.txt" "txt" :
              Handler Unit)).map HttpResponse.body = some (disk p)) ∧
    (runAssetHandler (fun _ => "modified")
        (Handler.lazyDist "/root/a.txt" "txt" : Handler Unit)).map
        HttpResponse.body = some "modified" ∧
    (runAssetHandler (fun _ => "modified")
        (Handler.eagerTS "original" "txt" : Handler Unit)).map
        HttpResponse.body = some "original" := by
  refine ⟨?_, rfl, rfl⟩
  exact (c8_eager_captures_lazy_rereads (β := Unit) (μ := Unit)).2.2
    (FsTree.file "a.txt" "original" FsTree.nil) "/root" "/assets"
    (ServerShell.new ())
    ⟨[⟨"/assets/a.txt", "GET", Handler.lazyDist "/root/a.txt" "txt"⟩], ()⟩ rfl
    ⟨"/assets/a.txt", "GET", Handler.lazyDist "/root/a.txt" "txt"⟩ (by simp)

theorem jsSplit_nodot (entry : String) (h : '.' ∉ entry.data) :
    jsSplit entry '.' = [entry] := by
  unfold jsSplit
  have hs : entry.data.splitOn '.' = [entry.data] :=
    List.splitOnP_eq_single _ _ fun x hx => by
      simp [ne_of_mem_of_not_mem hx h]
  rw [hs]
  rfl

/-- C10: a file name with no `.` character makes the whole name the
extension and the base an empty string; the `index.html` rewrite cannot
apply, the route is the prefix plus the full name, and the MIME resolver
is applied to the whole name (C9 gives the `text/plain` fallback when it
is unknown). -/
theorem c10_extensionless_file {β μ : Type} (entry : String)
    (h : '.' ∉ entry.data) :
    entryExtension entry = entry ∧
    jsJoin (jsSplit entry '.').dropLast '.' = "" ∧
    entry ≠ "index.html" ∧
    (∀ (sr sd c : String) (sh : ServerShell (Handler β) μ),
      '\\' ∉ sr.data → '\\' ∉ entry.data →
      useStaticTS (FsTree.file entry c FsTree.nil) sd sr sh =
        sh.get (sr ++ "/" ++ entry) (Handler.eagerTS c entry) ∧
      useDynamic (FsTree.file entry c FsTree.nil) sd sr sh =
        sh.get (sr ++ "/" ++ entry)
          (Handler.lazyDist (nodePathJoin sd entry) entry)) ∧
    (∀ (disk : String → String) (c : String),
      runAssetHandler (β := β) disk (Handler.eagerTS c entry) =
        some ⟨200, [("Content-Type", (MIMEFromExt entry).1)], c⟩) := by
  have hsplit := jsSplit_nodot entry h
  have hext : entryExtension entry = entry := by
    unfold entryExtension
    rw [hsplit]
    rfl
  have hidx : entry ≠ "index.html" := by
    rintro rfl
    exact h (by decide)
  have hdd : entry ≠ ".." := by
    rintro rfl
    exact h (by decide)
  refine ⟨hext, by rw [hsplit]; rfl, hidx, ?_, fun _ _ => rfl⟩
  intro sr sd c sh hsr hbs
  have hroute : jsReplaceAllChar (entryRoute sr entry) '\\' '/' =
      sr ++ "/" ++ entry := by
    rw [entryRoute_plain sr entry hidx hdd]
    exact jsReplaceAllChar_eq_self _ (no_bs_slash_append sr entry hsr hbs)
  constructor
  · show (match sh.get (jsReplaceAllChar (entryRoute sr entry) '\\' '/')
        (Handler.eagerTS c (entryExtension entry)) with
      | .error e => .error e
      | .ok sh2 => useStaticTS FsTree.nil sd sr sh2) =
      sh.get (sr ++ "/" ++ entry) (Handler.eagerTS c entry)
    rw [hroute, hext]
    cases hres : sh.get (sr ++ "/" ++ entry) (Handler.eagerTS c entry) with
    | error e => rfl
    | ok sh2 => rfl
  · show (match sh.get (jsReplaceAllChar (entryRoute sr entry) '\\' '/')
        (Handler.lazyDist (nodePathJoin sd entry) (entryExtension entry)) with
      | .error e => .error e
      | .ok sh2 => useDynamic FsTree.nil sd sr sh2) =
      sh.get (sr ++ "/" ++ entry)
        (Handler.lazyDist (nodePathJoin sd entry) entry)
    rw [hroute, hext]
    cases hres : sh.get (sr ++ "/" ++ entry)
        (Handler.lazyDist (nodePathJoin sd entry) entry) with
    | error e => rfl
    | ok sh2 => rfl

/-- C10 witness: the file `README` is registered at `/assets/README` with
its whole name as the extension, which resolves to the `text/plain`
fallback. -/
theorem c10_extensionless_file_witness :
    entryExtension "README" = "README" ∧
    useStaticTS (FsTree.file "README" "hi" FsTree.nil) "/root" "/assets"
        (ServerShell.new (α := Handler Unit) (μ := Unit) ()) =
      (ServerShell.new (α := Handler Unit) (μ := Unit) ()).get
        "/assets/README" (Handler.eagerTS "hi" "README") := by
  have h := c10_extensionless_file (β := Unit) (μ := Unit) "README" (by decide)
  exact ⟨h.1, (h.2.2.2.1 "/assets" "/root" "hi" (ServerShell.new ())
    (by decide) (by decide)).1⟩
